import Mathlib

/-!
# Verification of the Practice Session Engine (HSK vocabulary app)

Shallow embedding of the core logic of the vocabulary-learning client:
word search/filtering, distractor sampling, the answer-judging rules of the
Quiz / Speed Challenge / Write modes, Sentence-Fill eligibility, the Speed
Challenge timer state machine, the result-aggregation deduplication, and the
Hunter quest matcher.

Strings are modelled as `List Char` (a JS string is a sequence of code
units; every string handled here is within the BMP, so a `Char` per code
point is faithful).  JS `haystack.includes(needle)` is substring
containment, i.e. `needle <:+: haystack` (`List.IsInfix`).
-/

/-- The vocabulary record, from `src/types.ts` (`interface VocabWord`).
`level` is `number | string` in TypeScript, modelled as a sum. -/
structure VocabWord where
  id : Option String
  hanzi : List Char
  pinyin : List Char
  translations : List (List Char)
  level : Nat ⊕ String
  examples : Option (List (List Char))
  traditional : Option (List Char)
  partOfSpeech : Option (List Char)
  translationsThai : Option (List (List Char))
  sheetExample : Option (List Char)
deriving DecidableEq, Repr

/-- The "preferred meanings" selection that appears verbatim at every judging
site: `(w.translationsThai && w.translationsThai.length > 0) ?
w.translationsThai : w.translations` (Quiz.tsx, SpeedChallenge.tsx,
PinyinGame.tsx).  An absent (`undefined`) Thai list is falsy; an empty one
fails the length test; both fall back to `translations`. -/
def validMeanings (w : VocabWord) : List (List Char) :=
  match w.translationsThai with
  | some ts => if 0 < ts.length then ts else w.translations
  | none => w.translations

/-- `Quiz.handleAnswer` (src/components/Quiz.tsx): the selected option string
is looked up (`options[index]`) and judged by
`validMeanings.includes(selectedString)`. -/
def quizAnswerCorrect (w : VocabWord) (options : List (List Char))
    (index : Nat) : Bool :=
  let selectedString := options.getD index []
  decide (selectedString ∈ validMeanings w)

/-- `SpeedChallenge.handleAnswer` (src/components/games/SpeedChallenge.tsx):
the handler receives the selected display string directly and judges it by
`validMeanings.includes(selected)`. -/
def speedAnswerCorrect (w : VocabWord) (selected : List Char) : Bool :=
  decide (selected ∈ validMeanings w)

/-- C1: In Quiz and Speed Challenge, the selected display string is judged
correct iff it is a member of the target's preferred-meanings list
(`translationsThai` when non-empty, else `translations`); membership, not
equality with the one sampled display string, decides correctness, so any
member of the list is accepted. -/
theorem quiz_speed_answer_iff_member (w : VocabWord)
    (options : List (List Char)) (index : Nat) (selected : List Char) :
    (quizAnswerCorrect w options index = true ↔
      options.getD index [] ∈
        (match w.translationsThai with
         | some ts => if 0 < ts.length then ts else w.translations
         | none => w.translations)) ∧
    (speedAnswerCorrect w selected = true ↔
      selected ∈
        (match w.translationsThai with
         | some ts => if 0 < ts.length then ts else w.translations
         | none => w.translations)) := by
  constructor
  · simp [quizAnswerCorrect, validMeanings]
  · simp [speedAnswerCorrect, validMeanings]

/-- Distractor sampling, as written identically in `Quiz.options`
(src/components/Quiz.tsx) and `SpeedChallenge.generateQuestion`
(src/components/games/SpeedChallenge.tsx):
`words.filter(w => w.id !== target.id).sort(() => 0.5 - Math.random()).slice(0, count)`
with `count = 3`.  The random comparator shuffle is modelled by an explicit
`shuffle` oracle, constrained to be a permutation in the theorems. -/
def sampleDistractors (target : VocabWord) (pool : List VocabWord)
    (shuffle : List VocabWord → List VocabWord) (count : Nat) :
    List VocabWord :=
  (shuffle (pool.filter (fun w => decide (w.id ≠ target.id)))).take count

/-- C2: distractor selection removes every pool word sharing the target's id
before shuffling and truncating, so (for any permutation the shuffle
produces) no returned distractor carries the target's id, and when the
target is in the pool at most `min count (|pool| - 1)` items are returned. -/
theorem sampleDistractors_sound (target : VocabWord) (pool : List VocabWord)
    (shuffle : List VocabWord → List VocabWord) (count : Nat)
    (hshuffle : ∀ l, (shuffle l).Perm l) (hmem : target ∈ pool) :
    (∀ d ∈ sampleDistractors target pool shuffle count, d.id ≠ target.id) ∧
    (sampleDistractors target pool shuffle count).length ≤
      min count (pool.length - 1) := by
  constructor
  · intro d hd
    have hd' : d ∈ shuffle (pool.filter (fun w => decide (w.id ≠ target.id))) :=
      List.mem_of_mem_take hd
    have hd'' : d ∈ pool.filter (fun w => decide (w.id ≠ target.id)) :=
      (hshuffle _).mem_iff.mp hd'
    have := List.of_mem_filter hd''
    simpa using this
  · have hlen : (shuffle (pool.filter (fun w => decide (w.id ≠ target.id)))).length
        = (pool.filter (fun w => decide (w.id ≠ target.id))).length :=
      (hshuffle _).length_eq
    have hfilter : (pool.filter (fun w => decide (w.id ≠ target.id))).length
        ≤ pool.length - 1 := by
      obtain ⟨s, t, rfl⟩ := List.append_of_mem hmem
      have hcons : List.filter (fun w => decide (w.id ≠ target.id)) (target :: t)
          = List.filter (fun w => decide (w.id ≠ target.id)) t := by
        rw [List.filter_cons]
        simp
      rw [List.filter_append, hcons]
      simp only [List.length_append, List.length_cons]
      have hs := List.length_filter_le (fun w => decide (w.id ≠ target.id)) s
      have ht := List.length_filter_le (fun w => decide (w.id ≠ target.id)) t
      omega
    calc (sampleDistractors target pool shuffle count).length
        ≤ min count (shuffle (pool.filter (fun w => decide (w.id ≠ target.id)))).length := by
          simp [sampleDistractors, List.length_take]
      _ ≤ min count (pool.length - 1) := by
          rw [hlen]; exact min_le_min (Nat.le_refl _) hfilter

/-- A concrete word used to instantiate hypotheses-bearing theorems. -/
def wordKafei : VocabWord :=
  { id := some "w1"
    hanzi := "咖啡".toList
    pinyin := "kā fēi".toList
    translations := ["coffee".toList]
    level := Sum.inr "2"
    examples := none
    traditional := none
    partOfSpeech := some "n".toList
    translationsThai := none
    sheetExample := some "我们走吧。|请喝咖啡。".toList }

/-- A second concrete word (distinct id). -/
def wordNiHao : VocabWord :=
  { id := some "w2"
    hanzi := "你好".toList
    pinyin := "nǐ hǎo".toList
    translations := ["hello".toList]
    level := Sum.inr "1"
    examples := none
    traditional := none
    partOfSpeech := none
    translationsThai := none
    sheetExample := none }

/-- A third concrete word (distinct id). -/
def wordCha : VocabWord :=
  { id := some "w3"
    hanzi := "茶".toList
    pinyin := "chá".toList
    translations := ["tea".toList]
    level := Sum.inr "1"
    examples := none
    traditional := none
    partOfSpeech := none
    translationsThai := none
    sheetExample := none }

/-- Witness for C2 at a concrete target, pool and (identity) shuffle. -/
theorem sampleDistractors_sound_witness :
    (∀ d ∈ sampleDistractors wordKafei [wordKafei, wordNiHao, wordCha] id 3,
        d.id ≠ wordKafei.id) ∧
    (sampleDistractors wordKafei [wordKafei, wordNiHao, wordCha] id 3).length ≤
      min 3 ([wordKafei, wordNiHao, wordCha].length - 1) :=
  sampleDistractors_sound wordKafei [wordKafei, wordNiHao, wordCha] id 3
    (fun l => List.Perm.refl l) (by decide)

/-- Character-wise lower-casing, modelling `String.prototype.toLowerCase()`.
Every cased character handled in this development is ASCII; other
characters (hanzi, toned pinyin vowels, Thai) are caseless and unchanged. -/
def toLowerStr (s : List Char) : List Char := s.map Char.toLower

/-- `String.prototype.trim()`: strip whitespace from both ends. -/
def trimStr (s : List Char) : List Char :=
  ((s.dropWhile Char.isWhitespace).reverse.dropWhile Char.isWhitespace).reverse

/-- `WriteQuiz.handleSubmit` (src/components/games/WriteQuiz.tsx): candidate
answers are `[...(translationsThai || []), ...translations]` each passed
through `.toLowerCase().trim()`; the input is normalized the same way; the
answer is accepted when some candidate equals the input or is longer than 3
characters and contained in the input. -/
def writeAnswerCorrect (w : VocabWord) (input : List Char) : Bool :=
  let validAnswers := ((w.translationsThai.getD []) ++ w.translations).map
    (fun s => trimStr (toLowerStr s))
  let userInput := trimStr (toLowerStr input)
  validAnswers.any (fun ans =>
    decide (userInput = ans) ||
      (decide (3 < ans.length) && decide (ans <:+: userInput)))

/-- C6: a Write-mode answer is accepted iff some candidate among
`translationsThai ++ translations` equals the input after trimming and
case-folding both sides, or is longer than 3 characters and contained in the
normalized input; "Coffee" matches stored "coffee", "a cup of coffee please"
matches "coffee" (length 6 > 3), while a 3-character candidate such as "tea"
is not matched by mere containment. -/
theorem write_answer_iff (w : VocabWord) (input : List Char) :
    (writeAnswerCorrect w input = true ↔
      ∃ cand ∈ w.translationsThai.getD [] ++ w.translations,
        trimStr (toLowerStr input) = trimStr (toLowerStr cand) ∨
          (3 < (trimStr (toLowerStr cand)).length ∧
            trimStr (toLowerStr cand) <:+: trimStr (toLowerStr input))) ∧
    writeAnswerCorrect wordKafei "Coffee".toList = true ∧
    writeAnswerCorrect wordKafei "a cup of coffee please".toList = true ∧
    writeAnswerCorrect wordCha "green tea".toList = false := by
  refine ⟨?_, by decide, by decide, by decide⟩
  simp [writeAnswerCorrect, List.any_map, List.any_eq_true, Function.comp]
  constructor
  · rintro (⟨c, hc, hp⟩ | ⟨c, hc, hp⟩)
    · exact ⟨c, Or.inl hc, hp⟩
    · exact ⟨c, Or.inr hc, hp⟩
  · rintro ⟨c, hc | hc, hp⟩
    · exact Or.inl ⟨c, hc, hp⟩
    · exact Or.inr ⟨c, hc, hp⟩

/-- The Hunter normalization `clean` (src/components/games/VocabHunter.tsx):
`s.replace(/[^一-龥]/g, '')`, keeping exactly the characters inside
the CJK unified-ideograph range. -/
def cleanHanzi (s : List Char) : List Char :=
  s.filter (fun c => decide (0x4e00 ≤ c.toNat) && decide (c.toNat ≤ 0x9fa5))

/-- Quest-mode match test from `VocabHunter.captureAndScan`: some detected
text's clean form equals, or contains, the clean target headword. -/
def questIsMatch (questTarget : VocabWord) (detectedTexts : List (List Char)) :
    Bool :=
  let targetClean := cleanHanzi questTarget.hanzi
  detectedTexts.any (fun text =>
    let detectedClean := cleanHanzi text
    decide (detectedClean = targetClean) ||
      decide (targetClean <:+: detectedClean))

/-- Quest-mode scan outcome from `VocabHunter.captureAndScan`: an empty
recognition list is rejected up front; otherwise the fixed quest target is
reported as found exactly when `questIsMatch` succeeds. -/
def questScan (questTarget : VocabWord) (detectedTexts : List (List Char)) :
    Option VocabWord :=
  if detectedTexts.length = 0 then none
  else if questIsMatch questTarget detectedTexts then some questTarget
  else none

/-- C8: a Hunter Quest scan reports the target as found iff some recognized
fragment's clean form (non-ideograph characters stripped) equals or contains
the clean form of the target's headword; in particular target "咖啡" with
fragments ["请喝咖啡吧"] succeeds by substring containment on clean forms. -/
theorem quest_scan_iff (target : VocabWord) (frags : List (List Char)) :
    (questScan target frags = some target ↔
      ∃ t ∈ frags, cleanHanzi t = cleanHanzi target.hanzi ∨
        cleanHanzi target.hanzi <:+: cleanHanzi t) ∧
    questScan wordKafei ["请喝咖啡吧".toList] = some wordKafei := by
  refine ⟨?_, by decide⟩
  have hm : questIsMatch target frags = true ↔
      ∃ t ∈ frags, cleanHanzi t = cleanHanzi target.hanzi ∨
        cleanHanzi target.hanzi <:+: cleanHanzi t := by
    simp [questIsMatch, List.any_eq_true]
  rw [← hm]
  cases frags with
  | nil => simp [questScan, questIsMatch]
  | cons f fs =>
    unfold questScan
    simp only [List.length_cons]
    rw [if_neg (by omega)]
    by_cases h : questIsMatch target (f :: fs) = true
    · simp [h]
    · simp [h]

/-- The observable state of one Speed Challenge session
(src/components/games/SpeedChallenge.tsx `useState` hooks).  `score` is a JS
number that is clamped rather than allowed to go negative, modelled as `Int`
so that the clamp is meaningful.  The sampled option strings do not affect
any transition and are omitted. -/
structure SpeedState where
  timeLeft : Nat
  score : Int
  isGameOver : Bool
  currentWord : Option VocabWord
  correctWords : List VocabWord
  wrongWords : List VocabWord
deriving DecidableEq, Repr

/-- The mount-time state: `timeLeft = 60`, `score = 0`, not game over, with
the first generated question (`generateQuestion()` runs before the interval
is installed). -/
def speedInit (firstWord : Option VocabWord) : SpeedState :=
  { timeLeft := 60
    score := 0
    isGameOver := false
    currentWord := firstWord
    correctWords := []
    wrongWords := [] }

/-- One one-second interval tick:
`setTimeLeft(prev => { if (prev <= 1) { clearInterval; setIsGameOver(true); return 0; } return prev - 1; })`. -/
def speedTick (s : SpeedState) : SpeedState :=
  if s.timeLeft ≤ 1 then { s with timeLeft := 0, isGameOver := true }
  else { s with timeLeft := s.timeLeft - 1 }

/-- `SpeedChallenge.handleAnswer`: ignored once the game is over (and vacuous
with no current word); a correct selection adds 10 and moves to the next
generated question (the random regeneration is the `nextWord` oracle); a
wrong selection subtracts 5, clamped below at 0, and keeps the question. -/
def speedHandleAnswer (s : SpeedState) (selected : List Char)
    (nextWord : Option VocabWord) : SpeedState :=
  if s.isGameOver then s
  else
    match s.currentWord with
    | none => s
    | some cw =>
      if decide (selected ∈ validMeanings cw) then
        { s with score := s.score + 10
                 correctWords := s.correctWords ++ [cw]
                 currentWord := nextWord }
      else
        { s with score := max 0 (s.score - 5)
                 wrongWords := s.wrongWords ++ [cw] }

/-- An externally observable event of a running Speed Challenge session:
either a timer tick or an answer submission. -/
inductive SpeedEvent where
  | tick : SpeedEvent
  | answer (selected : List Char) (nextWord : Option VocabWord) : SpeedEvent
deriving Repr

/-- Apply one event to the session state. -/
def speedStep (s : SpeedState) : SpeedEvent → SpeedState
  | .tick => speedTick s
  | .answer selected nextWord => speedHandleAnswer s selected nextWord

/-- Run a whole event trace from a state. -/
def speedRun (s : SpeedState) (evs : List SpeedEvent) : SpeedState :=
  evs.foldl speedStep s

/-- Ticking a non-finished state `timeLeft` times ends the game without
touching the score. -/
theorem speedTick_iterate_timeLeft (k : Nat) :
    ∀ s : SpeedState, s.timeLeft = k → 1 ≤ k → s.isGameOver = false →
      speedTick^[k] s =
        { s with timeLeft := 0, isGameOver := true } := by
  induction k with
  | zero => intro s _ h1 _; omega
  | succ n ih =>
    intro s hk _ hgo
    by_cases hn : n = 0
    · subst hn
      rw [Function.iterate_one]
      unfold speedTick
      rw [if_pos (by omega)]
    · rw [Function.iterate_succ_apply]
      have hstep : speedTick s = { s with timeLeft := n } := by
        unfold speedTick
        rw [if_neg (by omega), hk]
        simp
      rw [hstep]
      simpa using ih { s with timeLeft := n } rfl (by omega) hgo

/-- C7: a Speed Challenge session that starts with the 60-second countdown
and receives exactly 60 one-second ticks with no answers submitted is in the
Finished (game-over) state with score 0; moreover answering never changes
the game-over flag, so the countdown is the sole exit condition, independent
of how many rounds were played. -/
theorem speed_sixty_ticks_finishes (firstWord : Option VocabWord) :
    ((speedTick^[60] (speedInit firstWord)).isGameOver = true ∧
      (speedTick^[60] (speedInit firstWord)).score = 0) ∧
    (∀ (s : SpeedState) (selected : List Char) (nextWord : Option VocabWord),
      (speedHandleAnswer s selected nextWord).isGameOver = s.isGameOver) := by
  constructor
  · have h := speedTick_iterate_timeLeft 60 (speedInit firstWord) rfl
      (by omega) rfl
    rw [h]
    exact ⟨rfl, rfl⟩
  · intro s selected nextWord
    unfold speedHandleAnswer
    split
    · rfl
    · split
      · rfl
      · split <;> rfl

/-- Each event preserves non-negativity of the score. -/
theorem speedStep_score_nonneg (s : SpeedState) (e : SpeedEvent)
    (h : 0 ≤ s.score) : 0 ≤ (speedStep s e).score := by
  cases e with
  | tick =>
    show 0 ≤ (speedTick s).score
    unfold speedTick
    by_cases ht : s.timeLeft ≤ 1
    · rw [if_pos ht]; exact h
    · rw [if_neg ht]; exact h
  | answer selected nextWord =>
    show 0 ≤ (speedHandleAnswer s selected nextWord).score
    by_cases hgo : s.isGameOver = true
    · simpa [speedHandleAnswer, hgo] using h
    · rcases hcw : s.currentWord with _ | cw
      · simpa [speedHandleAnswer, hgo, hcw] using h
      · by_cases hsel : selected ∈ validMeanings cw
        · have h10 : (0 : Int) ≤ s.score + 10 := by omega
          simpa [speedHandleAnswer, hgo, hcw, hsel] using h10
        · simp [speedHandleAnswer, hgo, hcw, hsel]

/-- C10: the Speed Challenge score starts at 0, gains 10 per correct answer,
loses 5 per wrong answer clamped below at 0, and is therefore non-negative
in every state reachable from the initial state by any trace of timer ticks
and answer submissions. -/
theorem speed_score_nonneg (firstWord : Option VocabWord)
    (evs : List SpeedEvent) :
    (speedInit firstWord).score = 0 ∧
    0 ≤ (speedRun (speedInit firstWord) evs).score := by
  refine ⟨rfl, ?_⟩
  have key : ∀ (l : List SpeedEvent) (s : SpeedState), 0 ≤ s.score →
      0 ≤ (speedRun s l).score := by
    intro l
    induction l with
    | nil => intro s hs; exact hs
    | cons e rest ih =>
      intro s hs
      exact ih (speedStep s e) (speedStep_score_nonneg s e hs)
  exact key evs (speedInit firstWord) (by simp [speedInit])

/-- Sentence-Fill eligibility, written identically in `startGameWithCount`
(src/App.tsx: `w.sheetExample && w.sheetExample.includes(w.hanzi)`) and in
the `SentenceFillIn` setup effect (src/components/games/SentenceFillIn.tsx).
An absent or empty `sheetExample` is falsy; otherwise the *whole* example
text is tested for containment of the headword. -/
def sentenceEligible (w : VocabWord) : Bool :=
  match w.sheetExample with
  | none => false
  | some ex => decide (ex ≠ []) && decide (w.hanzi <:+: ex)

/-- The eligible pool the Sentence-Fill engine builds (`validWords` in
SentenceFillIn.tsx). -/
def sentenceValidWords (pool : List VocabWord) : List VocabWord :=
  pool.filter sentenceEligible

/-- The first delimiter-separated segment of an example, as computed for
masking: `word.sheetExample!.split('|')[0].trim()` (SentenceFillIn.tsx). -/
def firstSegment (ex : List Char) : List Char :=
  trimStr (ex.takeWhile (fun c => decide (c ≠ '|')))

/-- Counterexample to C4 as stated: `wordKafei` has
`sheetExample = "我们走吧。|请喝咖啡。"`, whose *first* `|`-separated segment
does not contain the headword "咖啡", yet the word is eligible, because the
code tests containment against the whole example text, not against its first
segment. -/
theorem sentence_eligible_not_first_segment :
    sentenceEligible wordKafei = true ∧
    wordKafei ∈ sentenceValidWords [wordKafei] ∧
    ¬ (wordKafei.hanzi <:+:
        firstSegment ("我们走吧。|请喝咖啡。".toList)) := by
  refine ⟨by decide, by decide, by decide⟩

/-- C4 (amended): a word is eligible for a Sentence-Fill session iff its
example text is present, non-empty, and contains the headword literally
*anywhere* in the full (possibly multi-example) text; consequently a word
whose example text is non-empty but nowhere contains its headword is
excluded from the eligible pool. -/
theorem sentence_eligible_iff (pool : List VocabWord) (w : VocabWord)
    (ex : List Char) (hex : w.sheetExample = some ex) :
    w ∈ sentenceValidWords pool ↔
      w ∈ pool ∧ ex ≠ [] ∧ w.hanzi <:+: ex := by
  unfold sentenceValidWords
  rw [List.mem_filter]
  unfold sentenceEligible
  rw [hex]
  simp [and_assoc]

/-- Witness for C4 (amended) at a concrete pool and word. -/
theorem sentence_eligible_iff_witness :
    wordKafei ∈ sentenceValidWords [wordKafei, wordCha] ↔
      wordKafei ∈ [wordKafei, wordCha] ∧
        "我们走吧。|请喝咖啡。".toList ≠ [] ∧
        wordKafei.hanzi <:+: "我们走吧。|请喝咖啡。".toList :=
  sentence_eligible_iff [wordKafei, wordCha] wordKafei
    ("我们走吧。|请喝咖啡。".toList) (by decide)

/-- One `Map.set` step of `new Map(pairs)` (used by `GameSummary`,
src/components/GameSummary.tsx): setting an existing key keeps the key's
original position and replaces its value; a new key is appended. -/
def mapSet (m : List (Option String × VocabWord)) (k : Option String)
    (v : VocabWord) : List (Option String × VocabWord) :=
  if m.any (fun p => decide (p.1 = k)) then
    m.map (fun p => if p.1 = k then (k, v) else p)
  else m ++ [(k, v)]

/-- `new Map(words.map(w => [w.id, w]))`: insert the pairs left to right. -/
def jsMapOfWords (ws : List VocabWord) : List (Option String × VocabWord) :=
  ws.foldl (fun m w => mapSet m w.id w) []

/-- `Array.from(new Map(words.map(w => [w.id, w])).values())`, the
per-list deduplication `GameSummary` applies independently to
`correctWords` and to `wrongWords`. -/
def dedupById (ws : List VocabWord) : List VocabWord :=
  (jsMapOfWords ws).map Prod.snd

/-- Modelled from the spec: "deduplicated by id (first occurrence wins for
ordering)" — keep each id's first occurrence, in first-occurrence order. -/
def dedupFirst : List (Option String) → List (Option String)
  | [] => []
  | k :: ks => k :: dedupFirst (ks.filter (fun x => decide (x ≠ k)))
termination_by l => l.length
decreasing_by
  simp only [List.length_cons]
  exact Nat.lt_succ_of_le (List.length_filter_le _ _)

/-- Setting a key that is already present leaves the key sequence alone. -/
theorem mapSet_keys_of_mem (m : List (Option String × VocabWord))
    (k : Option String) (v : VocabWord)
    (h : k ∈ m.map Prod.fst) :
    (mapSet m k v).map Prod.fst = m.map Prod.fst := by
  have hany : m.any (fun p => decide (p.1 = k)) = true := by
    simp only [List.any_eq_true, decide_eq_true_eq]
    obtain ⟨p, hp, hpk⟩ := List.mem_map.mp h
    exact ⟨p, hp, hpk⟩
  unfold mapSet
  rw [if_pos hany, List.map_map]
  apply List.map_congr_left
  intro p _
  by_cases hpk : p.1 = k
  · simp [Function.comp, hpk]
  · simp [Function.comp, hpk]

/-- Setting a fresh key appends it to the key sequence. -/
theorem mapSet_keys_of_not_mem (m : List (Option String × VocabWord))
    (k : Option String) (v : VocabWord)
    (h : k ∉ m.map Prod.fst) :
    (mapSet m k v).map Prod.fst = m.map Prod.fst ++ [k] := by
  have hany : m.any (fun p => decide (p.1 = k)) = false := by
    simp only [List.any_eq_false, decide_eq_true_eq]
    intro p hp hpk
    exact h (List.mem_map.mpr ⟨p, hp, hpk⟩)
  unfold mapSet
  rw [if_neg (by simp [hany]), List.map_append]
  rfl

/-- Key sequence of the JS-Map fold: the accumulated keys followed by the
first-occurrence deduplication of the not-yet-present incoming ids. -/
theorem jsMap_keys_aux (ws : List VocabWord) :
    ∀ m : List (Option String × VocabWord),
      (ws.foldl (fun m w => mapSet m w.id w) m).map Prod.fst =
        m.map Prod.fst ++
          dedupFirst ((ws.map VocabWord.id).filter
            (fun k => decide (k ∉ m.map Prod.fst))) := by
  induction ws with
  | nil => intro m; simp [dedupFirst]
  | cons w rest ih =>
    intro m
    rw [List.foldl_cons]
    by_cases hmem : w.id ∈ m.map Prod.fst
    · have hkeys := mapSet_keys_of_mem m w.id w hmem
      rw [ih (mapSet m w.id w), hkeys]
      have hf : (decide (w.id ∉ m.map Prod.fst)) = false := by
        simpa using hmem
      rw [List.map_cons, List.filter_cons, hf]
      simp only [Bool.false_eq_true, if_false]
    · have hkeys := mapSet_keys_of_not_mem m w.id w hmem
      rw [ih (mapSet m w.id w), hkeys]
      have hf : (decide (w.id ∉ m.map Prod.fst)) = true := by
        simpa using hmem
      rw [List.map_cons, List.filter_cons, hf]
      simp only [if_true]
      rw [dedupFirst]
      have hpred : ∀ k ∈ (rest.map VocabWord.id),
          (decide (k ∉ (m.map Prod.fst ++ [w.id])))
            = ((decide (k ∉ m.map Prod.fst)) && decide (k ≠ w.id)) := by
        intro k _
        by_cases h1 : k ∈ m.map Prod.fst <;> by_cases h2 : k = w.id <;>
          simp [h1, h2]
      rw [List.filter_congr hpred, ← List.filter_filter]
      simp only [List.append_assoc, List.singleton_append]
      congr 2
      rw [List.filter_comm]

/-- Every pair in the JS-Map fold result keyed by an inserted word has that
word's id as its key. -/
theorem jsMap_snd_id (ws : List VocabWord) :
    ∀ m, (∀ p ∈ m, p.2.id = p.1) →
      ∀ p ∈ ws.foldl (fun m w => mapSet m w.id w) m, p.2.id = p.1 := by
  induction ws with
  | nil => intro m hm; exact hm
  | cons w rest ih =>
    intro m hm
    rw [List.foldl_cons]
    apply ih
    intro p hp
    unfold mapSet at hp
    by_cases hany : m.any (fun p => decide (p.1 = w.id)) = true
    · rw [if_pos hany] at hp
      obtain ⟨q, hq, hqp⟩ := List.mem_map.mp hp
      by_cases hqk : q.1 = w.id
      · rw [if_pos hqk] at hqp
        rw [← hqp]
      · rw [if_neg hqk] at hqp
        rw [← hqp]
        exact hm q hq
    · rw [if_neg hany] at hp
      rcases List.mem_append.mp hp with h | h
      · exact hm p h
      · rcases List.mem_singleton.mp h with rfl
        rfl

/-- The id sequence of the deduplicated list is the key sequence of the
underlying JS Map. -/
theorem dedupById_ids (ws : List VocabWord) :
    (dedupById ws).map VocabWord.id = (jsMapOfWords ws).map Prod.fst := by
  unfold dedupById
  rw [List.map_map]
  apply List.map_congr_left
  intro p hp
  simpa [Function.comp] using jsMap_snd_id ws [] (by simp) p hp

/-- Membership survives first-occurrence deduplication. -/
theorem mem_dedupFirst (l : List (Option String)) (k : Option String) :
    k ∈ dedupFirst l ↔ k ∈ l := by
  induction l using dedupFirst.induct with
  | case1 => simp [dedupFirst]
  | case2 k' ks ih =>
    rw [dedupFirst]
    by_cases hk : k = k'
    · simp [hk]
    · simp only [List.mem_cons, hk, false_or, ih, List.mem_filter,
        decide_eq_true_eq]
      constructor
      · exact fun h => h.1
      · exact fun h => ⟨h, hk⟩

/-- First-occurrence deduplication produces no duplicate ids. -/
theorem nodup_dedupFirst (l : List (Option String)) :
    (dedupFirst l).Nodup := by
  induction l using dedupFirst.induct with
  | case1 => simp [dedupFirst]
  | case2 k ks ih =>
    rw [dedupFirst]
    refine List.nodup_cons.mpr ⟨?_, ih⟩
    intro hk
    have := (mem_dedupFirst _ _).mp hk
    have := (List.mem_filter.mp this).2
    simp at this

/-- C5: at session finalization `GameSummary` deduplicates the
correctly-answered and the incorrectly-answered word lists by id,
each independently of the other, the first occurrence of an id determining
the reported order; the resulting id sequences are duplicate-free, and a
word answered correctly in one round and incorrectly in another round of
the same session appears (exactly once, by freedom from duplicates) in
each of the two reported lists. -/
theorem gameSummary_dedup (cw ww : List VocabWord) (w : VocabWord)
    (hc : w ∈ cw) (hw : w ∈ ww) :
    (dedupById cw).map VocabWord.id = dedupFirst (cw.map VocabWord.id) ∧
    (dedupById ww).map VocabWord.id = dedupFirst (ww.map VocabWord.id) ∧
    ((dedupById cw).map VocabWord.id).Nodup ∧
    ((dedupById ww).map VocabWord.id).Nodup ∧
    w.id ∈ (dedupById cw).map VocabWord.id ∧
    w.id ∈ (dedupById ww).map VocabWord.id := by
  have hids : ∀ ws : List VocabWord,
      (dedupById ws).map VocabWord.id = dedupFirst (ws.map VocabWord.id) := by
    intro ws
    rw [dedupById_ids]
    unfold jsMapOfWords
    rw [jsMap_keys_aux ws []]
    simp only [List.map_nil, List.nil_append]
    congr 1
    apply List.filter_eq_self.mpr
    intro a _
    simp
  have hmem : ∀ ws : List VocabWord, w ∈ ws →
      w.id ∈ (dedupById ws).map VocabWord.id := by
    intro ws hmem
    rw [hids ws]
    exact (mem_dedupFirst _ _).mpr (List.mem_map_of_mem VocabWord.id hmem)
  refine ⟨hids cw, hids ww, ?_, ?_, hmem cw hc, hmem ww hw⟩
  · rw [hids cw]; exact nodup_dedupFirst _
  · rw [hids ww]; exact nodup_dedupFirst _

/-- Witness for C5: `wordKafei` answered correctly twice and incorrectly
once in the same session appears in each duplicate-free reported list. -/
theorem gameSummary_dedup_witness :
    (dedupById [wordKafei, wordNiHao, wordKafei]).map VocabWord.id
        = dedupFirst ([wordKafei, wordNiHao, wordKafei].map VocabWord.id) ∧
    (dedupById [wordKafei]).map VocabWord.id
        = dedupFirst ([wordKafei].map VocabWord.id) ∧
    ((dedupById [wordKafei, wordNiHao, wordKafei]).map VocabWord.id).Nodup ∧
    ((dedupById [wordKafei]).map VocabWord.id).Nodup ∧
    wordKafei.id ∈ (dedupById [wordKafei, wordNiHao, wordKafei]).map VocabWord.id ∧
    wordKafei.id ∈ (dedupById [wordKafei]).map VocabWord.id :=
  gameSummary_dedup [wordKafei, wordNiHao, wordKafei] [wordKafei] wordKafei
    (by decide) (by decide)

/-- The canonical (NFD) decomposition of one character, modelling
`String.prototype.normalize("NFD")` (src/App.tsx `normalizeText`)
restricted to the characters occurring in this development: each toned
lowercase pinyin vowel decomposes into its base letter followed by the
combining tone mark (macron U+0304, acute U+0301, caron U+030C, grave
U+0300; the umlaut vowels additionally carry the diaeresis U+0308); every
other character decomposes to itself. -/
def nfdChar (c : Char) : List Char :=
  if c = 'ā' then ['a', Char.ofNat 0x304]
  else if c = 'á' then ['a', Char.ofNat 0x301]
  else if c = 'ǎ' then ['a', Char.ofNat 0x30C]
  else if c = 'à' then ['a', Char.ofNat 0x300]
  else if c = 'ē' then ['e', Char.ofNat 0x304]
  else if c = 'é' then ['e', Char.ofNat 0x301]
  else if c = 'ě' then ['e', Char.ofNat 0x30C]
  else if c = 'è' then ['e', Char.ofNat 0x300]
  else if c = 'ī' then ['i', Char.ofNat 0x304]
  else if c = 'í' then ['i', Char.ofNat 0x301]
  else if c = 'ǐ' then ['i', Char.ofNat 0x30C]
  else if c = 'ì' then ['i', Char.ofNat 0x300]
  else if c = 'ō' then ['o', Char.ofNat 0x304]
  else if c = 'ó' then ['o', Char.ofNat 0x301]
  else if c = 'ǒ' then ['o', Char.ofNat 0x30C]
  else if c = 'ò' then ['o', Char.ofNat 0x300]
  else if c = 'ū' then ['u', Char.ofNat 0x304]
  else if c = 'ú' then ['u', Char.ofNat 0x301]
  else if c = 'ǔ' then ['u', Char.ofNat 0x30C]
  else if c = 'ù' then ['u', Char.ofNat 0x300]
  else if c = 'ü' then ['u', Char.ofNat 0x308]
  else if c = 'ǖ' then ['u', Char.ofNat 0x308, Char.ofNat 0x304]
  else if c = 'ǘ' then ['u', Char.ofNat 0x308, Char.ofNat 0x301]
  else if c = 'ǚ' then ['u', Char.ofNat 0x308, Char.ofNat 0x30C]
  else if c = 'ǜ' then ['u', Char.ofNat 0x308, Char.ofNat 0x300]
  else [c]

/-- Character-wise NFD of a whole string. -/
def nfd (s : List Char) : List Char := s.flatMap nfdChar

/-- `normalizeText` (src/App.tsx):
`text.normalize("NFD").replace(/[̀-ͯ]/g, "").toLowerCase()` —
decompose, strip the combining-diacritical-marks block, lower-case. -/
def normalizeText (s : List Char) : List Char :=
  ((nfd s).filter
    (fun c => !(decide (0x300 ≤ c.toNat) && decide (c.toNat ≤ 0x36F)))).map
      Char.toLower

/-- The per-word predicate of `filterWords` (src/App.tsx): the term (already
lower-cased and trimmed) is matched as a substring of the headword, the
traditional form when present, the lower-cased romanization, the
diacritic-stripped romanization (against the diacritic-stripped term), and
every English and Thai meaning. -/
def wordMatches (lowerTerm normalizedTerm : List Char) (w : VocabWord) :
    Bool :=
  decide (lowerTerm <:+: w.hanzi) ||
  (match w.traditional with
   | some tr => decide (lowerTerm <:+: tr)
   | none => false) ||
  decide (lowerTerm <:+: toLowerStr w.pinyin) ||
  decide (normalizedTerm <:+: normalizeText w.pinyin) ||
  w.translations.any (fun tr => decide (lowerTerm <:+: toLowerStr tr)) ||
  (match w.translationsThai with
   | some ts => ts.any (fun tr => decide (lowerTerm <:+: toLowerStr tr))
   | none => false)

/-- `filterWords` (src/App.tsx): an empty term returns the pool unchanged;
otherwise the pool is filtered by `wordMatches` with
`lowerTerm = term.toLowerCase().trim()` and
`normalizedTerm = normalizeText(lowerTerm)` (both inlined below). -/
def filterWords (words : List VocabWord) (term : List Char) :
    List VocabWord :=
  if term = [] then words
  else
    words.filter
      (wordMatches (trimStr (toLowerStr term))
        (normalizeText (trimStr (toLowerStr term))))

/-- Counterexample to C3 as stated: the pool `[wordNiHao]` contains a word
whose romanization is "nǐ hǎo", yet searching with "ni3hao3" and with
"nihao" both return the empty list — digit tone marks are never stripped,
and the space inside the romanization is significant, so neither term is a
substring of any searched field. -/
theorem search_nihao_counterexample :
    wordNiHao.pinyin = "nǐ hǎo".toList ∧
    filterWords [wordNiHao] "ni3hao3".toList = [] ∧
    filterWords [wordNiHao] "nihao".toList = [] := by
  refine ⟨by decide, by decide, by decide⟩

/-- C3 (amended): diacritic-insensitive search works for terms that keep the
letters and spacing and only drop the tone marks: for every pool, a word
whose romanization is "nǐ hǎo" is returned when searching with "ni hao"
(diacritics are removed by canonical decomposition followed by stripping of
combining marks, so the normalized romanization is "ni hao"); the terms
"ni3hao3" and "nihao" are not matched (see the counterexample). -/
theorem search_nihao_amended (pool : List VocabWord) (w : VocabWord)
    (hmem : w ∈ pool) (hpy : w.pinyin = "nǐ hǎo".toList) :
    w ∈ filterWords pool "ni hao".toList := by
  unfold filterWords
  rw [if_neg (by decide)]
  refine List.mem_filter.mpr ⟨hmem, ?_⟩
  have h4 : decide (normalizeText (trimStr (toLowerStr "ni hao".toList)) <:+:
      normalizeText w.pinyin) = true := by
    rw [hpy]; decide
  unfold wordMatches
  rw [h4]
  simp

/-- Witness for C3 (amended) at the concrete one-word pool. -/
theorem search_nihao_amended_witness :
    wordNiHao ∈ filterWords [wordNiHao] "ni hao".toList :=
  search_nihao_amended [wordNiHao] wordNiHao (by decide) (by decide)

/-- Splitting `dropWhile` over an append: if the left part is consumed
entirely the right part is processed, otherwise dropping stops inside the
left part. -/
theorem dropWhile_append_eq (p : Char → Bool) :
    ∀ a b : List Char, (a ++ b).dropWhile p =
      if a.dropWhile p = [] then b.dropWhile p else a.dropWhile p ++ b := by
  intro a
  induction a with
  | nil => intro b; simp
  | cons c a' ih =>
    intro b
    by_cases hc : p c
    · rw [List.cons_append, List.dropWhile_cons, if_pos hc,
        List.dropWhile_cons, if_pos hc]
      exact ih b
    · rw [List.cons_append, List.dropWhile_cons, if_neg hc,
        List.dropWhile_cons, if_neg hc,
        if_neg (List.cons_ne_nil c a'), List.cons_append]

/-- Right-trimming a list yields a prefix of it. -/
theorem reverse_dropWhile_reverse_leading (q : Char → Bool) (d : List Char) :
    ((d.reverse.dropWhile q).reverse) <+: d := by
  have h := (List.dropWhile_suffix q (l := d.reverse)).reverse
  rwa [List.reverse_reverse] at h

/-- Trimming a prefix yields an infix of the trimmed whole: the whitespace
stripped from either end of the prefix cannot reach past the non-whitespace
ends that survive trimming the whole. -/
theorem trimStr_mono {p t : List Char} (h : p <+: t) :
    trimStr p <:+: trimStr t := by
  obtain ⟨r, rfl⟩ := h
  unfold trimStr
  by_cases h1 : p.dropWhile Char.isWhitespace = []
  · rw [h1]
    simp only [List.reverse_nil, List.dropWhile_nil]
    exact List.nil_infix
  · rw [dropWhile_append_eq _ p r, if_neg h1, List.reverse_append]
    by_cases h2 : r.reverse.dropWhile Char.isWhitespace = []
    · rw [dropWhile_append_eq _ r.reverse _, if_pos h2]
    · rw [dropWhile_append_eq _ r.reverse _, if_neg h2, List.reverse_append,
        List.reverse_reverse]
      exact ((reverse_dropWhile_reverse_leading Char.isWhitespace
        (p.dropWhile Char.isWhitespace)).trans
          (List.prefix_append _ _)).isInfix

/-- NFD decomposition preserves substring containment. -/
theorem nfd_mono {a b : List Char} (h : a <:+: b) : nfd a <:+: nfd b := by
  obtain ⟨s, t, rfl⟩ := h
  refine ⟨nfd s, nfd t, ?_⟩
  unfold nfd
  rw [List.flatMap_append, List.flatMap_append]

/-- `normalizeText` preserves substring containment. -/
theorem normalizeText_mono {a b : List Char} (h : a <:+: b) :
    normalizeText a <:+: normalizeText b :=
  ((nfd_mono h).filter _).map _

/-- Matching is antitone in the term: a word matching a term also matches
any term whose processed forms are substrings of the processed forms. -/
theorem wordMatches_mono {lt' nt' lt nt : List Char}
    (hlt : lt' <:+: lt) (hnt : nt' <:+: nt) (w : VocabWord)
    (h : wordMatches lt nt w = true) : wordMatches lt' nt' w = true := by
  unfold wordMatches at h ⊢
  simp only [Bool.or_eq_true, decide_eq_true_eq, List.any_eq_true] at h ⊢
  rcases h with ((((h | h) | h) | h) | h) | h
  · exact Or.inl (Or.inl (Or.inl (Or.inl (Or.inl (hlt.trans h)))))
  · refine Or.inl (Or.inl (Or.inl (Or.inl (Or.inr ?_))))
    revert h
    cases w.traditional with
    | none => exact id
    | some tr =>
      simp only [decide_eq_true_eq]
      exact fun h => hlt.trans h
  · exact Or.inl (Or.inl (Or.inl (Or.inr (hlt.trans h))))
  · exact Or.inl (Or.inl (Or.inr (hnt.trans h)))
  · obtain ⟨tr, htr, hh⟩ := h
    exact Or.inl (Or.inr ⟨tr, htr, hlt.trans hh⟩)
  · refine Or.inr ?_
    revert h
    cases w.translationsThai with
    | none => exact id
    | some ts =>
      simp only [List.any_eq_true, decide_eq_true_eq]
      rintro ⟨tr, htr, hh⟩
      exact ⟨tr, htr, hlt.trans hh⟩

/-- C9: search is monotonic under narrowing: for every pool, search term
`t` and prefix `p` of `t`, every word returned for `t` is also returned
for `p`. -/
theorem filterWords_monotone (pool : List VocabWord) (t p : List Char)
    (hpre : p <+: t) :
    filterWords pool t ⊆ filterWords pool p := by
  intro w hw
  by_cases hp : p = []
  · subst hp
    unfold filterWords
    rw [if_pos rfl]
    unfold filterWords at hw
    by_cases ht : t = []
    · rwa [if_pos ht] at hw
    · rw [if_neg ht] at hw
      exact (List.mem_filter.mp hw).1
  · have ht : t ≠ [] := by
      intro hnil
      subst hnil
      exact hp (List.prefix_nil.mp hpre)
    unfold filterWords at hw ⊢
    rw [if_neg ht] at hw
    rw [if_neg hp]
    obtain ⟨hwmem, hwp⟩ := List.mem_filter.mp hw
    refine List.mem_filter.mpr ⟨hwmem, ?_⟩
    have hlt : trimStr (toLowerStr p) <:+: trimStr (toLowerStr t) :=
      trimStr_mono (hpre.map Char.toLower)
    exact wordMatches_mono hlt (normalizeText_mono hlt) w hwp

/-- Witness for C9 at a concrete pool and term/prefix pair. -/
theorem filterWords_monotone_witness :
    filterWords [wordNiHao, wordKafei] "hell".toList ⊆
      filterWords [wordNiHao, wordKafei] "he".toList :=
  filterWords_monotone [wordNiHao, wordKafei] "hell".toList "he".toList
    (by decide)
